import Mathlib

/-!
Shallow embedding of the scheduling core of `fritz-homeautomation-rs`
(crate `fritz-christmas-light-controller`): the interval deriver of
`src/config.rs`, the wake-time pruning of `src/timer.rs`, and the duration
text format of `src/duration.rs`, together with theorems about them.

Modelling conventions:
* `chrono::NaiveDate` is a day number (`Nat`, days since an epoch);
  `chrono::NaiveTime` is a second-of-day (`Nat`).  All `DateTime<Local>`
  values in this code share one fixed UTC offset, so chronological order
  is lexicographic order on (date, second-of-day).
* `chrono::Duration` is a whole number of seconds (`Int`); the claims under
  study only involve whole-second durations.
* Rust `String`/`&str` is `List Char`; the string helpers used by
  `duration.rs` (`trim`, `split_once(' ')`, `replace`, `str::parse::<i64>`)
  are modelled explicitly below.
* `duration_parse` returns a `ParseOutcome`: a returned `Ok`, a returned
  `Err(Error::DurationParseError)`, or a `panic!` raised inside chrono's
  `Duration::minutes`/`Duration::seconds` constructors when the value
  falls outside `Duration`'s bounds of plus or minus `i64::MAX`
  milliseconds.
-/

namespace Fritz

/-- Model of `chrono::DateTime<Local>` (all values share one fixed offset):
a calendar day number plus a second-of-day. -/
structure LDT where
  date : Nat
  time : Nat
deriving DecidableEq, Repr

/-- Chronological order on `LDT` (lexicographic, matching `chrono`'s
`Ord for DateTime` on values with one fixed offset). -/
def LDT.le (a b : LDT) : Prop :=
  a.date < b.date ∨ (a.date = b.date ∧ a.time ≤ b.time)

/-- Strict chronological order on `LDT`. -/
def LDT.lt (a b : LDT) : Prop :=
  a.date < b.date ∨ (a.date = b.date ∧ a.time < b.time)

instance (a b : LDT) : Decidable (LDT.le a b) :=
  inferInstanceAs (Decidable (_ ∨ _))

instance (a b : LDT) : Decidable (LDT.lt a b) :=
  inferInstanceAs (Decidable (_ ∨ _))

/-- Model of the `State` enum (`#[default] Off`, `On`). -/
inductive State where
  | off
  | on
deriving DecidableEq, Repr

instance : Inhabited State := ⟨State.off⟩

/-- Model of the `When` enum: `Daily` or `Date(NaiveDate)`. -/
inductive When where
  | daily
  | date (d : Nat)
deriving DecidableEq, Repr

/-- Model of `Entry { when, time, state }`. -/
structure Entry where
  when : When
  time : Nat
  state : State
deriving DecidableEq, Repr

/-- Model of `StateChange { when, state }`. -/
structure StateChange where
  when : LDT
  state : State
deriving DecidableEq, Repr

/-- Model of `Interval { start, end, state }`; the Rust field `end` is
called `stop` here because `end` is a Lean keyword. -/
structure Interval where
  start : LDT
  stop : LDT
  state : State
deriving DecidableEq, Repr

/-- Model of `Config` (the fields relevant to scheduling; `end` is called
`stop` as for `Interval`). -/
structure Config where
  device : List Char
  start : LDT
  stop : LDT
  check_state : Int
  entries : List Entry
deriving DecidableEq, Repr

/-- Model of the helper `fn dt(date, time)`:
`date.and_time(time).and_local_timezone(Local).unwrap()`. -/
def dt (date : Nat) (time : Nat) : LDT := ⟨date, time⟩

/-- One step of the per-day `match entry.when` in
`StateChange::from_entries_between`: the candidate state change the entry
contributes on day `d`, if any. -/
def entryMatch (en : Entry) (d : Nat) : Option StateChange :=
  match en.when with
  | When.daily => some ⟨dt d en.time, en.state⟩
  | When.date date => if date = d then some ⟨dt d en.time, en.state⟩ else none

/-- The days scanned by the `while current_date < end_date` loop:
`begin.date_naive(), …, end.date_naive() - 1`. -/
def daysBetween (b e : LDT) : List Nat :=
  (List.range (e.date - b.date)).map (fun i => b.date + i)

/-- All candidate state changes pushed by the day loop of
`StateChange::from_entries_between`, in push order. -/
def candidates (entries : List Entry) (b e : LDT) : List StateChange :=
  (daysBetween b e).flatMap (fun d => entries.filterMap (fun en => entryMatch en d))

/-- Insert an element into a list sorted by `key`, before the first element
whose key is `≥` its own key.  Building block of the stable sort below. -/
def insertByKey {α : Type} (key : α → LDT) (x : α) : List α → List α
  | [] => [x]
  | y :: ys => if LDT.le (key x) (key y) then x :: y :: ys else y :: insertByKey key x ys

/-- Stable insertion sort by `key`.  Models `Vec::sort_by_key` /
`Vec::sort` (both stable in Rust): a stable sort's output is uniquely
determined (sorted, with equal-key runs in input order), so any stable
sorting algorithm is extensionally the same function. -/
def sortByKey {α : Type} (key : α → LDT) : List α → List α
  | [] => []
  | x :: xs => insertByKey key x (sortByKey key xs)

/-- Tail worker for `dedupByWhen`: `last` is the most recently kept
element; drop each element whose `when` equals `last.when`. -/
def dedupByWhenAux (last : StateChange) : List StateChange → List StateChange
  | [] => []
  | b :: rest =>
    if b.when = last.when then dedupByWhenAux last rest
    else b :: dedupByWhenAux b rest

/-- Model of `state_changes.dedup_by_key(|ea| ea.when)`: remove consecutive
elements with the same timestamp, keeping the first of each run. -/
def dedupByWhen : List StateChange → List StateChange
  | [] => []
  | a :: rest => a :: dedupByWhenAux a rest

/-- Model of the `needs_begin` block: if the list is non-empty and its
first change is strictly after `begin`, insert `StateChange{begin, Off}`
at the front.  (On an empty list `first()` is `None`, `unwrap_or(false)`
makes `needs_begin` false, and nothing is inserted.) -/
def addBegin (b : LDT) (l : List StateChange) : List StateChange :=
  match l with
  | [] => []
  | s :: _ => if LDT.lt b s.when then ⟨b, default⟩ :: l else l

/-- Model of the `needs_end` block: if the list is non-empty and its last
change is strictly before `end`, push `StateChange{end, Off}` at the back. -/
def addEnd (e : LDT) (l : List StateChange) : List StateChange :=
  match l.getLast? with
  | none => l
  | some s => if LDT.lt s.when e then l ++ [⟨e, default⟩] else l

/-- Tail worker for `removeUnchanged`: `last` is the state of the most
recently kept element; drop each element whose state equals it. -/
def removeUnchangedAux (last : State) : List StateChange → List StateChange
  | [] => []
  | b :: rest =>
    if b.state = last then removeUnchangedAux last rest
    else b :: removeUnchangedAux b.state rest

/-- Model of the final `retain` block of `from_entries_between`: drop every
change whose state equals the state of the last kept change. -/
def removeUnchanged : List StateChange → List StateChange
  | [] => []
  | a :: rest => a :: removeUnchangedAux a.state rest

/-- Model of `StateChange::from_entries_between`. -/
def StateChange.from_entries_between (entries : List Entry) (b e : LDT) :
    List StateChange :=
  removeUnchanged (addEnd e (addBegin b
    (dedupByWhen (sortByKey (fun c => c.when) (candidates entries b e)))))

/-- Model of `Config::intervals`: zip the state-change sequence with itself
shifted by one (`iter().zip(iter().skip(1))`) into half-open intervals. -/
def Config.intervals (cfg : Config) : List Interval :=
  ((StateChange.from_entries_between cfg.entries cfg.start cfg.stop).zip
      (StateChange.from_entries_between cfg.entries cfg.start cfg.stop).tail).map
    (fun p => ⟨p.1.when, p.2.when, p.1.state⟩)

/-- Holds (as `true`) iff entry `en` produces a candidate state change exactly at
instant `t` on day `t.date` (its time-of-day matches and its recurrence
rule covers that day). -/
def matchesAt (en : Entry) (t : LDT) : Bool :=
  (en.time == t.time) &&
    (match en.when with
     | When.daily => true
     | When.date d => d == t.date)

/-- Model of `TimerState::update_times` with `now` taken as a parameter:
`self.times.retain(|t| *t > now); self.times.sort();`. -/
def TimerState.update_times (now : LDT) (times : List LDT) : List LDT :=
  sortByKey (fun t => t) (times.filter (fun t => decide (LDT.lt now t)))

/-! ### String model for `duration.rs` -/

/-- The decimal digit character for `n < 10`. -/
def digitChar (n : Nat) : Char :=
  match n with
  | 0 => '0' | 1 => '1' | 2 => '2' | 3 => '3' | 4 => '4'
  | 5 => '5' | 6 => '6' | 7 => '7' | 8 => '8' | 9 => '9'
  | _ => '*'

/-- Fuel-indexed decimal digit expansion (most significant first); with
`fuel > n` this is the usual base-10 representation. -/
def natDigitsCore : Nat → Nat → List Char
  | 0, _ => []
  | fuel + 1, n =>
    if n < 10 then [digitChar n]
    else natDigitsCore fuel (n / 10) ++ [digitChar (n % 10)]

/-- Decimal representation of a natural number, as Rust `Display` prints it. -/
def natDigits (n : Nat) : List Char := natDigitsCore (n + 1) n

/-- Decimal representation of an integer, as Rust `Display for i64` prints
it (`-` sign for negatives, no sign otherwise). -/
def intRepr (i : Int) : List Char :=
  if i < 0 then '-' :: natDigits i.natAbs else natDigits i.natAbs

/-- Whitespace for the model of `str::trim` (the claims only involve ASCII
whitespace). -/
def isWS (c : Char) : Bool :=
  c == ' ' || c == '\t' || c == '\n' || c == '\r'

/-- Model of `str::trim`: drop leading and trailing whitespace. -/
def trim (s : List Char) : List Char :=
  ((s.dropWhile isWS).reverse.dropWhile isWS).reverse

/-- Model of `str::split_once(' ')`: split at the first space, `none` when
there is no space. -/
def splitOnceSpace : List Char → Option (List Char × List Char)
  | [] => none
  | c :: rest =>
    if c = ' ' then some ([], rest)
    else
      match splitOnceSpace rest with
      | some (a, b) => some (c :: a, b)
      | none => none

/-- Fuel-indexed worker for `replace`; with `fuel ≥ s.length` it replaces
every non-overlapping occurrence of `pat` left to right, as Rust
`str::replace` does. -/
def replaceCore (pat rep : List Char) : Nat → List Char → List Char
  | 0, s => s
  | fuel + 1, s =>
    match s with
    | [] => []
    | c :: rest =>
      if pat ≠ [] ∧ pat.isPrefixOf (c :: rest) then
        rep ++ replaceCore pat rep fuel ((c :: rest).drop pat.length)
      else c :: replaceCore pat rep fuel rest

/-- Model of Rust `str::replace` (for a non-empty pattern). -/
def replace (s pat rep : List Char) : List Char :=
  replaceCore pat rep s.length s

/-- The numeric value of a decimal digit character, if it is one. -/
def charDigit (c : Char) : Option Nat :=
  if '0' ≤ c ∧ c ≤ '9' then some (c.toNat - '0'.toNat) else none

/-- Accumulating decimal parse: fails on the first non-digit. -/
def parseNatAux : List Char → Nat → Option Nat
  | [], acc => some acc
  | c :: rest, acc =>
    match charDigit c with
    | some d => parseNatAux rest (acc * 10 + d)
    | none => none

/-- Parse a non-empty all-digit string as a natural number. -/
def parseNatDigits : List Char → Option Nat
  | [] => none
  | s => parseNatAux s 0

/-- The value of `i64::MAX`. -/
def I64MAX : Nat := 9223372036854775807

/-- Model of `str::parse::<i64>`: optional sign, then a non-empty digit
string, rejecting values outside the `i64` range. -/
def parseI64 : List Char → Option Int
  | [] => none
  | c :: rest =>
    if c = '-' then
      (parseNatDigits rest).bind
        (fun n => if n ≤ I64MAX + 1 then some (-(n : Int)) else none)
    else if c = '+' then
      (parseNatDigits rest).bind
        (fun n => if n ≤ I64MAX then some ((n : Int)) else none)
    else
      (parseNatDigits (c :: rest)).bind
        (fun n => if n ≤ I64MAX then some ((n : Int)) else none)

/-- The literal `"mins"`. -/
def minsLit : List Char := ['m', 'i', 'n', 's']

/-- The literal `"secs"`. -/
def secsLit : List Char := ['s', 'e', 'c', 's']

/-- Model of `duration_pretty`: `"{minutes}mins {seconds}secs"` where
`minutes = num_minutes()` and `seconds = num_seconds() - minutes * 60`
when `minutes > 0`. -/
def duration_pretty (d : Int) : List Char :=
  let minutes := Int.tdiv d 60
  let seconds := if 0 < minutes then d - minutes * 60 else d
  intRepr minutes ++ minsLit ++ [' '] ++ intRepr seconds ++ secsLit

/-- The outcome of running `duration_parse`: a returned `Ok(duration)`, a
returned `Err(Error::DurationParseError(msg))`, or a `panic!` aborting the
program inside a chrono `Duration` constructor. -/
inductive ParseOutcome where
  | ok (value : Int)
  | err (msg : String)
  | panic (msg : String)
deriving DecidableEq, Repr

/-- Model of `chrono::Duration::seconds` on a whole number of seconds:
`none` models the `panic!` raised when the value lies outside
`Duration`'s bounds of plus or minus `i64::MAX` milliseconds, which for a
whole-second value with zero nanoseconds means `|s| > 9223372036854775`
(`i64::MAX / 1000` truncated). -/
def durationSeconds (s : Int) : Option Int :=
  if -9223372036854775 ≤ s ∧ s ≤ 9223372036854775 then some s else none

/-- Model of `chrono::Duration::minutes`: `checked_mul` by 60 followed by
the `Duration::seconds` bound check.  For an `i64` minute count the
`checked_mul` overflow is subsumed by the bound check, so the combined
effect is a panic (`none`) exactly when `m * 60` seconds falls outside
`Duration`'s bounds, i.e. when `|m| > 153722867280912`. -/
def durationMinutes (m : Int) : Option Int := durationSeconds (m * 60)

/-- Model of `duration_parse`: trim, split at the first space, strip the
literal `"mins"`/`"secs"` by substring replacement, parse both components
as `i64`, build `Duration::minutes(a)` and `Duration::seconds(b)` (each of
which can panic when out of bounds, in source order), and return their
sum.  chrono's `Add for Duration` performs no bound check of its own, so
the final sum is returned unchecked, exactly as in the source. -/
def duration_parse (s : List Char) : ParseOutcome :=
  match splitOnceSpace (trim s) with
  | none => ParseOutcome.err "unable to parse duration"
  | some (a, b) =>
    match parseI64 (replace a minsLit []) with
    | none => ParseOutcome.err "Unable to parse minutes"
    | some m =>
      match durationMinutes m with
      | none => ParseOutcome.panic "Duration::minutes out of bounds"
      | some dm =>
        match parseI64 (replace b secsLit []) with
        | none => ParseOutcome.err "Unable to parse seconds"
        | some s2 =>
          match durationSeconds s2 with
          | none => ParseOutcome.panic "Duration::seconds out of bounds"
          | some ds => ParseOutcome.ok (dm + ds)

/-! ### Concrete fixtures

Calendar days are numbered as days since 1970-01-01, so
2022-11-28 = 19324, 2022-11-29 = 19325, 2022-11-30 = 19326,
2022-12-01 = 19327.  Times of day are in seconds, so 13:00:00 = 46800,
14:00:00 = 50400, 16:00:00 = 57600, 18:00:00 = 64800, 22:00:00 = 79200,
23:59:59 = 86399, 12:42:00 = 45720, 15:00:00 = 54000. -/

/-- The configuration of the repository's `create_intervals` test: window
2022-11-28T00:00:00+01:00 .. 2022-12-01T23:59:59+01:00 with the six
worked-example entries. -/
def exampleConfig : Config :=
  { device := []
  , start := ⟨19324, 0⟩
  , stop := ⟨19327, 86399⟩
  , check_state := 600
  , entries :=
      [ ⟨When.date 19326, 57600, State.on⟩
      , ⟨When.date 19327, 50400, State.on⟩
      , ⟨When.daily, 46800, State.on⟩
      , ⟨When.daily, 50400, State.off⟩
      , ⟨When.daily, 64800, State.on⟩
      , ⟨When.daily, 79200, State.off⟩ ]
  }

/-- The twelve intervals the code actually derives for `exampleConfig`
(the expected output of the repository's `create_intervals` test). -/
def exampleIntervals : List Interval :=
  [ ⟨⟨19324, 0⟩, ⟨19324, 46800⟩, State.off⟩
  , ⟨⟨19324, 46800⟩, ⟨19324, 50400⟩, State.on⟩
  , ⟨⟨19324, 50400⟩, ⟨19324, 64800⟩, State.off⟩
  , ⟨⟨19324, 64800⟩, ⟨19324, 79200⟩, State.on⟩
  , ⟨⟨19324, 79200⟩, ⟨19325, 46800⟩, State.off⟩
  , ⟨⟨19325, 46800⟩, ⟨19325, 50400⟩, State.on⟩
  , ⟨⟨19325, 50400⟩, ⟨19325, 64800⟩, State.off⟩
  , ⟨⟨19325, 64800⟩, ⟨19325, 79200⟩, State.on⟩
  , ⟨⟨19325, 79200⟩, ⟨19326, 46800⟩, State.off⟩
  , ⟨⟨19326, 46800⟩, ⟨19326, 50400⟩, State.on⟩
  , ⟨⟨19326, 50400⟩, ⟨19326, 57600⟩, State.off⟩
  , ⟨⟨19326, 57600⟩, ⟨19326, 79200⟩, State.on⟩ ]

/-- A configuration whose window starts mid-day at 2022-11-28T15:00:00
(after the first daily entry) with entries `daily 13:00 On`,
`daily 22:00 Off`. -/
def boundaryConfig : Config :=
  { device := []
  , start := ⟨19324, 54000⟩
  , stop := ⟨19325, 86399⟩
  , check_state := 600
  , entries :=
      [ ⟨When.daily, 46800, State.on⟩
      , ⟨When.daily, 79200, State.off⟩ ]
  }

/-- A configuration with an empty entry list. -/
def emptyEntriesConfig : Config :=
  { device := []
  , start := ⟨19324, 0⟩
  , stop := ⟨19325, 0⟩
  , check_state := 600
  , entries := []
  }

/-- The tie-break fixture of the spec: `[{Daily, 12:42, On},
{Date(2022-11-28), 12:42, Off}]` over a window containing
2022-11-28T12:42:00. -/
def tieEntries : List Entry :=
  [ ⟨When.daily, 45720, State.on⟩
  , ⟨When.date 19324, 45720, State.off⟩ ]

/-! ## Order lemmas for `LDT` -/

theorem LDT.le_refl (a : LDT) : LDT.le a a := by
  unfold LDT.le; omega

theorem LDT.le_total (a b : LDT) : LDT.le a b ∨ LDT.le b a := by
  unfold LDT.le; omega

theorem LDT.le_trans {a b c : LDT} (h₁ : LDT.le a b) (h₂ : LDT.le b c) :
    LDT.le a c := by
  unfold LDT.le at *; omega

theorem LDT.lt_trans {a b c : LDT} (h₁ : LDT.lt a b) (h₂ : LDT.lt b c) :
    LDT.lt a c := by
  unfold LDT.lt at *; omega

theorem LDT.lt_of_not_le {a b : LDT} (h : ¬ LDT.le a b) : LDT.lt b a := by
  unfold LDT.le at h; unfold LDT.lt; omega

theorem LDT.ext_eq {a b : LDT} (h₁ : a.date = b.date) (h₂ : a.time = b.time) :
    a = b := by
  cases a; cases b; simp_all

theorem LDT.lt_of_le_of_ne {a b : LDT} (h₁ : LDT.le a b) (h₂ : a ≠ b) :
    LDT.lt a b := by
  have hne : a.date ≠ b.date ∨ a.time ≠ b.time := by
    by_contra hc
    push_neg at hc
    exact h₂ (LDT.ext_eq hc.1 hc.2)
  unfold LDT.le at h₁; unfold LDT.lt; omega

theorem LDT.lt_irrefl (a : LDT) : ¬ LDT.lt a a := by
  unfold LDT.lt; omega

theorem LDT.le_of_lt {a b : LDT} (h : LDT.lt a b) : LDT.le a b := by
  unfold LDT.lt at h; unfold LDT.le; omega

theorem LDT.ne_of_lt {a b : LDT} (h : LDT.lt a b) : a ≠ b := by
  intro hc; subst hc; exact LDT.lt_irrefl a h

theorem LDT.lt_of_lt_of_le {a b c : LDT} (h₁ : LDT.lt a b) (h₂ : LDT.le b c) :
    LDT.lt a c := by
  unfold LDT.lt at *; unfold LDT.le at h₂; omega

theorem LDT.lt_of_le_of_lt {a b c : LDT} (h₁ : LDT.le a b) (h₂ : LDT.lt b c) :
    LDT.lt a c := by
  unfold LDT.le at h₁; unfold LDT.lt at *; omega

/-! ## Stable sort lemmas -/

theorem insertByKey_perm {α : Type} (key : α → LDT) (x : α) (l : List α) :
    (insertByKey key x l).Perm (x :: l) := by
  induction l with
  | nil => exact List.Perm.refl _
  | cons y ys ih =>
    unfold insertByKey
    by_cases h : LDT.le (key x) (key y)
    · simp only [if_pos h]
      exact List.Perm.refl _
    · simp only [if_neg h]
      exact (ih.cons y).trans (List.Perm.swap x y ys)

theorem sortByKey_perm {α : Type} (key : α → LDT) (l : List α) :
    (sortByKey key l).Perm l := by
  induction l with
  | nil => exact List.Perm.refl _
  | cons x xs ih =>
    exact (insertByKey_perm key x (sortByKey key xs)).trans (ih.cons x)

theorem insertByKey_pairwise {α : Type} (key : α → LDT) (x : α) (l : List α)
    (h : l.Pairwise (fun a b => LDT.le (key a) (key b))) :
    (insertByKey key x l).Pairwise (fun a b => LDT.le (key a) (key b)) := by
  induction l with
  | nil => simp [insertByKey]
  | cons y ys ih =>
    rw [List.pairwise_cons] at h
    obtain ⟨hy, hys⟩ := h
    unfold insertByKey
    by_cases hle : LDT.le (key x) (key y)
    · simp only [if_pos hle]
      refine List.pairwise_cons.mpr ⟨?_, List.pairwise_cons.mpr ⟨hy, hys⟩⟩
      intro z hz
      rcases List.mem_cons.mp hz with hz | hz
      · exact hz ▸ hle
      · exact LDT.le_trans hle (hy z hz)
    · simp only [if_neg hle]
      refine List.pairwise_cons.mpr ⟨?_, ih hys⟩
      intro z hz
      have hz' : z ∈ x :: ys := (insertByKey_perm key x ys).mem_iff.mp hz
      rcases List.mem_cons.mp hz' with hz' | hz'
      · exact hz' ▸ LDT.le_of_lt (LDT.lt_of_not_le hle)
      · exact hy z hz'

theorem sortByKey_pairwise {α : Type} (key : α → LDT) (l : List α) :
    (sortByKey key l).Pairwise (fun a b => LDT.le (key a) (key b)) := by
  induction l with
  | nil => simp [sortByKey]
  | cons x xs ih => exact insertByKey_pairwise key x (sortByKey key xs) ih

theorem filter_insertByKey {α : Type} (key : α → LDT) (t : LDT) (p : α → Bool)
    (hp : ∀ a, p a = true → key a = t) (x : α) (l : List α) :
    (insertByKey key x l).filter p = (x :: l).filter p := by
  induction l with
  | nil => rfl
  | cons y ys ih =>
    unfold insertByKey
    by_cases hle : LDT.le (key x) (key y)
    · simp only [if_pos hle]
    · simp only [if_neg hle]
      by_cases hpy : p y = true
      · have hky : key y = t := hp y hpy
        have hpx : ¬ p x = true := by
          intro hc
          have hkx : key x = t := hp x hc
          exact hle (hkx ▸ hky ▸ LDT.le_refl t)
        rw [List.filter_cons_of_pos hpy, ih, List.filter_cons_of_neg hpx,
          List.filter_cons_of_neg hpx, List.filter_cons_of_pos hpy]
      · rw [List.filter_cons_of_neg hpy, ih, List.filter_cons,
          List.filter_cons,
          show List.filter p (y :: ys) = List.filter p ys from
            List.filter_cons_of_neg hpy]

theorem filter_sortByKey {α : Type} (key : α → LDT) (t : LDT) (p : α → Bool)
    (hp : ∀ a, p a = true → key a = t) (l : List α) :
    (sortByKey key l).filter p = l.filter p := by
  induction l with
  | nil => rfl
  | cons x xs ih =>
    calc (insertByKey key x (sortByKey key xs)).filter p
        = (x :: sortByKey key xs).filter p :=
          filter_insertByKey key t p hp x (sortByKey key xs)
      _ = (x :: xs).filter p := by
          simp only [List.filter_cons, ih]

theorem find?_eq_head?_filter {α : Type} (p : α → Bool) (l : List α) :
    l.find? p = (l.filter p).head? := by
  induction l with
  | nil => rfl
  | cons x xs ih =>
    by_cases hx : p x = true
    · rw [List.find?_cons_of_pos xs hx, List.filter_cons_of_pos hx,
        List.head?_cons]
    · rw [List.find?_cons_of_neg xs hx, List.filter_cons_of_neg hx, ih]

/-! ## Deduplication lemmas -/

theorem dedupByWhenAux_strict (last : StateChange) (l : List StateChange)
    (hsort : l.Pairwise (fun a b => LDT.le a.when b.when))
    (hge : ∀ x ∈ l, LDT.le last.when x.when) :
    (∀ x ∈ dedupByWhenAux last l, LDT.lt last.when x.when) ∧
      (dedupByWhenAux last l).Pairwise (fun a b => LDT.lt a.when b.when) := by
  induction l generalizing last with
  | nil => simp [dedupByWhenAux]
  | cons b rest ih =>
    rw [List.pairwise_cons] at hsort
    obtain ⟨hb, hrest⟩ := hsort
    unfold dedupByWhenAux
    by_cases heq : b.when = last.when
    · simp only [if_pos heq]
      refine ih last hrest ?_
      intro x hx
      have hx' := hb x hx
      rw [heq] at hx'
      exact hx'
    · simp only [if_neg heq]
      have hlastb : LDT.lt last.when b.when :=
        LDT.lt_of_le_of_ne (hge b (by simp)) (fun hc => heq hc.symm)
      obtain ⟨ih1, ih2⟩ := ih b hrest hb
      constructor
      · intro x hx
        rcases List.mem_cons.mp hx with rfl | hx
        · exact hlastb
        · exact LDT.lt_trans hlastb (ih1 x hx)
      · exact List.pairwise_cons.mpr ⟨ih1, ih2⟩

theorem dedupByWhen_pairwise (l : List StateChange)
    (hsort : l.Pairwise (fun a b => LDT.le a.when b.when)) :
    (dedupByWhen l).Pairwise (fun a b => LDT.lt a.when b.when) := by
  cases l with
  | nil => simp [dedupByWhen]
  | cons a rest =>
    rw [List.pairwise_cons] at hsort
    obtain ⟨ha, hrest⟩ := hsort
    obtain ⟨h1, h2⟩ := dedupByWhenAux_strict a rest hrest ha
    exact List.pairwise_cons.mpr ⟨h1, h2⟩

theorem dedupByWhenAux_find? (t : LDT) (last : StateChange)
    (l : List StateChange) (hlast : last.when ≠ t) :
    (dedupByWhenAux last l).find? (fun c => decide (c.when = t)) =
      l.find? (fun c => decide (c.when = t)) := by
  induction l generalizing last with
  | nil => rfl
  | cons b rest ih =>
    unfold dedupByWhenAux
    by_cases heq : b.when = last.when
    · simp only [if_pos heq]
      rw [List.find?_cons_of_neg rest (by simp [heq, hlast])]
      exact ih last hlast
    · simp only [if_neg heq]
      by_cases hbt : b.when = t
      · rw [List.find?_cons_of_pos _ (by simp [hbt]),
          List.find?_cons_of_pos _ (by simp [hbt])]
      · rw [List.find?_cons_of_neg _ (by simp [hbt]),
          List.find?_cons_of_neg _ (by simp [hbt])]
        exact ih b hbt

theorem dedupByWhen_find? (t : LDT) (l : List StateChange) :
    (dedupByWhen l).find? (fun c => decide (c.when = t)) =
      l.find? (fun c => decide (c.when = t)) := by
  cases l with
  | nil => rfl
  | cons a rest =>
    show (a :: dedupByWhenAux a rest).find? _ = _
    by_cases hat : a.when = t
    · rw [List.find?_cons_of_pos _ (by simp [hat]),
        List.find?_cons_of_pos _ (by simp [hat])]
    · rw [List.find?_cons_of_neg _ (by simp [hat]),
        List.find?_cons_of_neg _ (by simp [hat])]
      exact dedupByWhenAux_find? t a rest hat

/-! ## Boundary synthesis and elision lemmas -/

theorem pairwise_le_getLast (l : List StateChange) (s : StateChange)
    (h : l.Pairwise (fun a b => LDT.lt a.when b.when))
    (hs : l.getLast? = some s) :
    ∀ x ∈ l, LDT.le x.when s.when := by
  induction l with
  | nil => simp at hs
  | cons a rest ih =>
    cases rest with
    | nil =>
      simp only [List.getLast?_singleton, Option.some.injEq] at hs
      intro x hx
      simp only [List.mem_singleton] at hx
      rw [hx, hs]
      exact LDT.le_refl _
    | cons b rest' =>
      rw [List.getLast?_cons_cons] at hs
      rw [List.pairwise_cons] at h
      obtain ⟨ha, h'⟩ := h
      intro x hx
      rcases List.mem_cons.mp hx with rfl | hx
      · have hb : LDT.le b.when s.when := ih h' hs b (by simp)
        exact LDT.le_trans (LDT.le_of_lt (ha b (by simp))) hb
      · exact ih h' hs x hx

theorem addBegin_pairwise (b : LDT) (l : List StateChange)
    (h : l.Pairwise (fun a b => LDT.lt a.when b.when)) :
    (addBegin b l).Pairwise (fun a b => LDT.lt a.when b.when) := by
  cases l with
  | nil => exact h
  | cons s rest =>
    unfold addBegin
    by_cases hlt : LDT.lt b s.when
    · simp only [if_pos hlt]
      refine List.pairwise_cons.mpr ⟨?_, h⟩
      intro x hx
      rcases List.mem_cons.mp hx with rfl | hx
      · exact hlt
      · rw [List.pairwise_cons] at h
        exact LDT.lt_trans hlt (h.1 x hx)
    · simp only [if_neg hlt]
      exact h

theorem addEnd_pairwise (e : LDT) (l : List StateChange)
    (h : l.Pairwise (fun a b => LDT.lt a.when b.when)) :
    (addEnd e l).Pairwise (fun a b => LDT.lt a.when b.when) := by
  unfold addEnd
  cases hl : l.getLast? with
  | none => exact h
  | some s =>
    by_cases hlt : LDT.lt s.when e
    · simp only [if_pos hlt]
      rw [List.pairwise_append]
      refine ⟨h, by simp, ?_⟩
      intro x hx y hy
      simp only [List.mem_singleton] at hy
      subst hy
      exact LDT.lt_of_le_of_lt (pairwise_le_getLast l s h hl x hx) hlt
    · simp only [if_neg hlt]
      exact h

theorem removeUnchangedAux_sublist (last : State) (l : List StateChange) :
    (removeUnchangedAux last l).Sublist l := by
  induction l generalizing last with
  | nil => exact List.nil_sublist _
  | cons b rest ih =>
    unfold removeUnchangedAux
    by_cases heq : b.state = last
    · simp only [if_pos heq]
      exact (ih last).cons b
    · simp only [if_neg heq]
      exact (ih b.state).cons₂ b

theorem removeUnchanged_sublist (l : List StateChange) :
    (removeUnchanged l).Sublist l := by
  cases l with
  | nil => exact List.nil_sublist _
  | cons a rest =>
    exact (removeUnchangedAux_sublist a.state rest).cons₂ a

theorem removeUnchangedAux_ne (last : State) (l : List StateChange) :
    (∀ x ∈ (removeUnchangedAux last l).head?, x.state ≠ last) ∧
      (removeUnchangedAux last l).Chain' (fun a b => a.state ≠ b.state) := by
  induction l generalizing last with
  | nil => simp [removeUnchangedAux]
  | cons b rest ih =>
    unfold removeUnchangedAux
    by_cases heq : b.state = last
    · simp only [if_pos heq]
      exact ih last
    · simp only [if_neg heq]
      obtain ⟨ih1, ih2⟩ := ih b.state
      refine ⟨?_, ?_⟩
      · intro x hx
        simp only [List.head?_cons, Option.mem_some_iff] at hx
        rw [hx] at heq
        exact heq
      · rw [List.chain'_cons']
        exact ⟨fun y hy => (ih1 y hy).symm, ih2⟩

theorem removeUnchanged_chain (l : List StateChange) :
    (removeUnchanged l).Chain' (fun a b => a.state ≠ b.state) := by
  cases l with
  | nil => simp [removeUnchanged]
  | cons a rest =>
    show List.Chain' _ (a :: removeUnchangedAux a.state rest)
    rw [List.chain'_cons']
    obtain ⟨h1, h2⟩ := removeUnchangedAux_ne a.state rest
    exact ⟨fun y hy => (h1 y hy).symm, h2⟩

/-! ## Pipeline invariants -/

theorem from_entries_between_pairwise (entries : List Entry) (b e : LDT) :
    (StateChange.from_entries_between entries b e).Pairwise
      (fun a b => LDT.lt a.when b.when) := by
  unfold StateChange.from_entries_between
  have h1 := sortByKey_pairwise (fun c : StateChange => c.when)
    (candidates entries b e)
  have h2 := dedupByWhen_pairwise _ h1
  have h3 := addBegin_pairwise b _ h2
  have h4 := addEnd_pairwise e _ h3
  exact List.Pairwise.sublist (removeUnchanged_sublist _) h4

theorem from_entries_between_state_chain (entries : List Entry) (b e : LDT) :
    (StateChange.from_entries_between entries b e).Chain'
      (fun a b => a.state ≠ b.state) :=
  removeUnchanged_chain _

theorem candidates_nil (b e : LDT) : candidates [] b e = [] := by
  unfold candidates
  have h : ∀ ds : List Nat,
      ds.flatMap (fun d => List.filterMap (fun en => entryMatch en d) []) = [] := by
    intro ds
    induction ds with
    | nil => rfl
    | cons d ds ih => simp [ih]
  exact h _

theorem from_entries_between_nil (b e : LDT) :
    StateChange.from_entries_between [] b e = [] := by
  unfold StateChange.from_entries_between
  rw [candidates_nil]
  rfl

/-! ## Characterising which candidate survives at a given instant -/

theorem entryMatch_eq_some (en : Entry) (d : Nat) (c : StateChange)
    (h : entryMatch en d = some c) :
    c.when = ⟨d, en.time⟩ ∧ c.state = en.state := by
  obtain ⟨w, tm, st⟩ := en
  cases w with
  | daily =>
    simp only [entryMatch, Option.some.injEq] at h
    subst h
    exact ⟨rfl, rfl⟩
  | date dd =>
    simp only [entryMatch] at h
    by_cases hdd : dd = d
    · rw [if_pos hdd] at h
      simp only [Option.some.injEq] at h
      subst h
      exact ⟨rfl, rfl⟩
    · rw [if_neg hdd] at h
      simp at h

theorem perDay_find?_none (entries : List Entry) (d : Nat) (t : LDT)
    (hd : d ≠ t.date) :
    (entries.filterMap (fun en => entryMatch en d)).find?
      (fun c => decide (c.when = t)) = none := by
  rw [List.find?_eq_none]
  intro c hc
  rw [List.mem_filterMap] at hc
  obtain ⟨en, _, hen⟩ := hc
  obtain ⟨hw, _⟩ := entryMatch_eq_some en d c hen
  simp only [hw, decide_eq_true_eq]
  intro h
  exact hd (congrArg LDT.date h)

theorem entryMatch_none_matchesAt (en : Entry) (t : LDT)
    (h : entryMatch en t.date = none) : matchesAt en t = false := by
  obtain ⟨w, tm, st⟩ := en
  cases w with
  | daily => simp [entryMatch] at h
  | date dd =>
    simp only [entryMatch] at h
    by_cases hdd : dd = t.date
    · rw [if_pos hdd] at h; simp at h
    · simp [matchesAt, hdd]

theorem entryMatch_some_pred (en : Entry) (t : LDT) (c : StateChange)
    (h : entryMatch en t.date = some c) :
    decide (c.when = t) = matchesAt en t := by
  obtain ⟨w, tm, st⟩ := en
  cases w with
  | daily =>
    simp only [entryMatch, Option.some.injEq] at h
    subst h
    show decide (dt t.date tm = t) = matchesAt ⟨When.daily, tm, st⟩ t
    by_cases htime : tm = t.time
    · rw [show dt t.date tm = t from LDT.ext_eq rfl htime]
      simp [matchesAt, htime]
    · have hct : ¬ (dt t.date tm = t) :=
        fun hc => htime (congrArg LDT.time hc)
      simp [matchesAt, htime, hct]
  | date dd =>
    simp only [entryMatch] at h
    by_cases hdd : dd = t.date
    · rw [if_pos hdd] at h
      simp only [Option.some.injEq] at h
      subst h
      show decide (dt t.date tm = t) = matchesAt ⟨When.date dd, tm, st⟩ t
      by_cases htime : tm = t.time
      · rw [show dt t.date tm = t from LDT.ext_eq rfl htime]
        simp [matchesAt, htime, hdd]
      · have hct : ¬ (dt t.date tm = t) :=
          fun hc => htime (congrArg LDT.time hc)
        simp [matchesAt, htime, hct]
    · rw [if_neg hdd] at h; simp at h

theorem entryMatch_some_val (en : Entry) (t : LDT) (c : StateChange)
    (h : entryMatch en t.date = some c) (hc : c.when = t) :
    c = ⟨t, en.state⟩ := by
  obtain ⟨hw, hs⟩ := entryMatch_eq_some en t.date c h
  obtain ⟨cw, cs⟩ := c
  have hc' : cw = t := hc
  have hs' : cs = en.state := hs
  subst hc'
  subst hs'
  rfl

theorem perDay_find?_eq (entries : List Entry) (t : LDT) :
    (entries.filterMap (fun en => entryMatch en t.date)).find?
        (fun c => decide (c.when = t)) =
      (entries.find? (fun en => matchesAt en t)).map
        (fun en => (⟨t, en.state⟩ : StateChange)) := by
  induction entries with
  | nil => rfl
  | cons en rest ih =>
    cases hm : entryMatch en t.date with
    | none =>
      rw [List.filterMap_cons_none (f := fun en => entryMatch en t.date) hm,
        List.find?_cons_of_neg (p := fun en => matchesAt en t) rest
          (by simp [entryMatch_none_matchesAt en t hm])]
      exact ih
    | some c =>
      rw [List.filterMap_cons_some (f := fun en => entryMatch en t.date) hm]
      by_cases hq : matchesAt en t = true
      · have hpc : (fun c => decide (c.when = t)) c = true := by
          show decide (c.when = t) = true
          rw [entryMatch_some_pred en t c hm]
          exact hq
        rw [List.find?_cons_of_pos (p := fun c : StateChange => decide (c.when = t)) _ hpc,
          List.find?_cons_of_pos (p := fun en => matchesAt en t) rest hq,
          entryMatch_some_val en t c hm (by simpa using hpc)]
        rfl
      · have hpc : ¬ ((fun c => decide (c.when = t)) c = true) := by
          show ¬ (decide (c.when = t) = true)
          rw [entryMatch_some_pred en t c hm]
          exact hq
        rw [List.find?_cons_of_neg (p := fun c : StateChange => decide (c.when = t)) _ hpc,
          List.find?_cons_of_neg (p := fun en => matchesAt en t) rest hq]
        exact ih

theorem flatMap_find?_none (entries : List Entry) (t : LDT) (ds : List Nat)
    (h : t.date ∉ ds) :
    (ds.flatMap (fun d => entries.filterMap (fun en => entryMatch en d))).find?
      (fun c => decide (c.when = t)) = none := by
  induction ds with
  | nil => rfl
  | cons d ds ih =>
    rw [List.flatMap_cons, List.find?_append,
      perDay_find?_none entries d t (fun hc => h (hc ▸ List.mem_cons_self d ds)),
      Option.none_or]
    exact ih (fun hc => h (List.mem_cons_of_mem d hc))

theorem flatMap_find?_eq (entries : List Entry) (t : LDT) (ds : List Nat)
    (hnd : ds.Nodup) (hmem : t.date ∈ ds) :
    (ds.flatMap (fun d => entries.filterMap (fun en => entryMatch en d))).find?
        (fun c => decide (c.when = t)) =
      (entries.find? (fun en => matchesAt en t)).map
        (fun en => (⟨t, en.state⟩ : StateChange)) := by
  induction ds with
  | nil => simp at hmem
  | cons d ds ih =>
    rw [List.flatMap_cons, List.find?_append]
    rw [List.nodup_cons] at hnd
    rcases List.mem_cons.mp hmem with heq | hmem'
    · subst heq
      rw [perDay_find?_eq entries t,
        flatMap_find?_none entries t ds hnd.1, Option.or_none]
    · by_cases hd : d = t.date
      · subst hd
        exact absurd hmem' hnd.1
      · rw [perDay_find?_none entries d t hd, Option.none_or]
        exact ih hnd.2 hmem'

theorem daysBetween_nodup (b e : LDT) : (daysBetween b e).Nodup := by
  unfold daysBetween
  exact (List.nodup_range _).map (fun x y h => by omega)

theorem candidates_find? (entries : List Entry) (b e t : LDT)
    (hmem : t.date ∈ daysBetween b e) :
    (candidates entries b e).find? (fun c => decide (c.when = t)) =
      (entries.find? (fun en => matchesAt en t)).map
        (fun en => (⟨t, en.state⟩ : StateChange)) :=
  flatMap_find?_eq entries t (daysBetween b e) (daysBetween_nodup b e) hmem

theorem find?_of_earliest {α : Type} (p : α → Bool) (l : List α) (k : Nat)
    (hk : k < l.length) (hpk : p (l.get ⟨k, hk⟩) = true)
    (hj : ∀ j (hjk : j < k), p (l.get ⟨j, Nat.lt_trans hjk hk⟩) = false) :
    l.find? p = some (l.get ⟨k, hk⟩) := by
  induction l generalizing k with
  | nil => exact absurd hk (by simp)
  | cons x xs ih =>
    cases k with
    | zero => exact List.find?_cons_of_pos xs hpk
    | succ k' =>
      have hx : p x = false := hj 0 (Nat.succ_pos k')
      rw [List.find?_cons_of_neg _ (by simp [hx])]
      exact ih k' (Nat.lt_of_succ_lt_succ hk) hpk
        (fun j hjk => hj (j + 1) (Nat.succ_lt_succ hjk))

/-! ## Interval indexing -/

theorem intervals_length (cfg : Config) :
    cfg.intervals.length =
      (StateChange.from_entries_between cfg.entries cfg.start cfg.stop).length - 1 := by
  unfold Config.intervals
  rw [List.length_map, List.length_zip, List.length_tail]
  omega

theorem intervals_getElem (cfg : Config) (i : Nat) (hi : i < cfg.intervals.length)
    (h1 : i < (StateChange.from_entries_between cfg.entries cfg.start cfg.stop).length)
    (h2 : i + 1 <
      (StateChange.from_entries_between cfg.entries cfg.start cfg.stop).length) :
    cfg.intervals.get ⟨i, hi⟩ =
      ⟨((StateChange.from_entries_between cfg.entries cfg.start cfg.stop).get
          ⟨i, h1⟩).when,
       ((StateChange.from_entries_between cfg.entries cfg.start cfg.stop).get
          ⟨i + 1, h2⟩).when,
       ((StateChange.from_entries_between cfg.entries cfg.start cfg.stop).get
          ⟨i, h1⟩).state⟩ := by
  simp only [List.get_eq_getElem, Config.intervals, List.getElem_map,
    List.getElem_zip, List.getElem_tail]

/-! ## Decimal digits and integer parsing -/

theorem mem_natDigitsCore (fuel n : Nat) (h : n < fuel) (c : Char)
    (hc : c ∈ natDigitsCore fuel n) : ∃ k, k < 10 ∧ c = digitChar k := by
  induction fuel generalizing n with
  | zero => omega
  | succ fuel ih =>
    unfold natDigitsCore at hc
    by_cases h10 : n < 10
    · rw [if_pos h10] at hc
      simp only [List.mem_singleton] at hc
      exact ⟨n, h10, hc⟩
    · rw [if_neg h10] at hc
      rcases List.mem_append.mp hc with hc | hc
      · exact ih (n / 10) (by omega) hc
      · simp only [List.mem_singleton] at hc
        exact ⟨n % 10, by omega, hc⟩

theorem mem_natDigits (n : Nat) (c : Char) (hc : c ∈ natDigits n) :
    ∃ k, k < 10 ∧ c = digitChar k :=
  mem_natDigitsCore (n + 1) n (by omega) c hc

theorem not_mem_natDigits (ch : Char) (h : ∀ k, k < 10 → digitChar k ≠ ch)
    (n : Nat) : ch ∉ natDigits n := by
  intro hc
  obtain ⟨k, hk, hck⟩ := mem_natDigits n ch hc
  exact h k hk hck.symm

theorem natDigitsCore_ne_nil (fuel n : Nat) (h : n < fuel) :
    natDigitsCore fuel n ≠ [] := by
  cases fuel with
  | zero => omega
  | succ fuel =>
    unfold natDigitsCore
    by_cases h10 : n < 10
    · simp [h10]
    · simp [h10]

theorem natDigits_ne_nil (n : Nat) : natDigits n ≠ [] :=
  natDigitsCore_ne_nil (n + 1) n (by omega)

theorem charDigit_digitChar (k : Nat) (hk : k < 10) :
    charDigit (digitChar k) = some k := by
  interval_cases k <;> decide

theorem parseNatAux_append (xs ys : List Char) (acc : Nat) :
    parseNatAux (xs ++ ys) acc =
      (parseNatAux xs acc).bind (fun m => parseNatAux ys m) := by
  induction xs generalizing acc with
  | nil => rfl
  | cons c rest ih =>
    cases hcd : charDigit c with
    | none => simp [parseNatAux, hcd]
    | some d => simp [parseNatAux, hcd, ih]

theorem parseNatAux_natDigitsCore (fuel n acc : Nat) (h : n < fuel) :
    parseNatAux (natDigitsCore fuel n) acc =
      some (acc * 10 ^ (natDigitsCore fuel n).length + n) := by
  induction fuel generalizing n acc with
  | zero => omega
  | succ fuel ih =>
    unfold natDigitsCore
    by_cases h10 : n < 10
    · rw [if_pos h10]
      simp [parseNatAux, charDigit_digitChar n h10]
    · rw [if_neg h10]
      rw [parseNatAux_append, ih (n / 10) acc (by omega)]
      show parseNatAux [digitChar (n % 10)] _ = _
      simp only [parseNatAux, charDigit_digitChar (n % 10) (by omega)]
      rw [List.length_append]
      simp only [List.length_singleton, Option.some.injEq]
      have hp : 10 ^ ((natDigitsCore fuel (n / 10)).length + 1) =
          10 ^ (natDigitsCore fuel (n / 10)).length * 10 := pow_succ 10 _
      rw [hp]
      have hdm : n / 10 * 10 + n % 10 = n := by omega
      ring_nf
      omega

theorem parseNatDigits_natDigits (n : Nat) : parseNatDigits (natDigits n) = some n := by
  obtain ⟨c, rest, hshape⟩ : ∃ c rest, natDigits n = c :: rest := by
    cases hl : natDigits n with
    | nil => exact absurd hl (natDigits_ne_nil n)
    | cons c rest => exact ⟨c, rest, rfl⟩
  rw [hshape]
  show parseNatAux (c :: rest) 0 = some n
  rw [← hshape]
  have h := parseNatAux_natDigitsCore (n + 1) n 0 (by omega)
  simpa using h

theorem parseI64_natDigits (n : Nat) (hn : n ≤ I64MAX) :
    parseI64 (natDigits n) = some (n : Int) := by
  obtain ⟨c, rest, hshape⟩ : ∃ c rest, natDigits n = c :: rest := by
    cases hl : natDigits n with
    | nil => exact absurd hl (natDigits_ne_nil n)
    | cons c rest => exact ⟨c, rest, rfl⟩
  obtain ⟨k, hk, hck⟩ := mem_natDigits n c
    (by rw [hshape]; exact List.mem_cons_self c rest)
  have hdash : ¬ c = '-' := by subst hck; interval_cases k <;> decide
  have hplus : ¬ c = '+' := by subst hck; interval_cases k <;> decide
  rw [hshape]
  simp only [parseI64]
  rw [if_neg hdash, if_neg hplus, ← hshape, parseNatDigits_natDigits]
  simp [hn]

theorem parseI64_intRepr (i : Int) (h1 : -9223372036854775808 ≤ i)
    (h2 : i ≤ 9223372036854775807) : parseI64 (intRepr i) = some i := by
  unfold intRepr
  by_cases hneg : i < 0
  · rw [if_pos hneg]
    show parseI64 ('-' :: natDigits i.natAbs) = some i
    simp only [parseI64]
    rw [if_pos trivial, parseNatDigits_natDigits]
    have hle : i.natAbs ≤ I64MAX + 1 := by
      show i.natAbs ≤ 9223372036854775807 + 1
      omega
    simp only [Option.some_bind]
    rw [if_pos hle]
    simp only [Option.some.injEq]
    omega
  · rw [if_neg hneg]
    have hle : i.natAbs ≤ I64MAX := by
      show i.natAbs ≤ 9223372036854775807
      omega
    rw [parseI64_natDigits _ hle]
    congr 1
    omega

/-! ## String helper lemmas -/

theorem isWS_digitChar (k : Nat) (hk : k < 10) : isWS (digitChar k) = false := by
  interval_cases k <;> decide

theorem dropWhile_eq_self_of_head (l : List Char)
    (hl : ∀ c ∈ l.head?, isWS c = false) : l.dropWhile isWS = l := by
  cases l with
  | nil => rfl
  | cons c rest =>
    rw [List.dropWhile_cons, if_neg]
    simp only [List.head?_cons, Option.mem_some_iff] at hl
    simp [hl c rfl]

theorem trim_eq_self (s : List Char)
    (h1 : ∀ c ∈ s.head?, isWS c = false)
    (h2 : ∀ c ∈ s.getLast?, isWS c = false) : trim s = s := by
  unfold trim
  rw [dropWhile_eq_self_of_head s h1,
    dropWhile_eq_self_of_head s.reverse
      (by rw [List.head?_reverse]; exact h2)]
  exact List.reverse_reverse s

theorem splitOnceSpace_none (s : List Char) (h : ' ' ∉ s) :
    splitOnceSpace s = none := by
  induction s with
  | nil => rfl
  | cons c rest ih =>
    simp only [splitOnceSpace]
    rw [if_neg (fun hc => h (by rw [← hc]; exact List.mem_cons_self c rest)),
      ih (fun hc => h (List.mem_cons_of_mem c hc))]

theorem splitOnceSpace_append (xs ys : List Char) (h : ' ' ∉ xs) :
    splitOnceSpace (xs ++ ' ' :: ys) = some (xs, ys) := by
  induction xs with
  | nil => simp [splitOnceSpace]
  | cons c rest ih =>
    rw [List.cons_append]
    simp only [splitOnceSpace]
    rw [if_neg (fun hc => h (by rw [← hc]; exact List.mem_cons_self c rest)),
      ih (fun hc => h (List.mem_cons_of_mem c hc))]

theorem replaceCore_nil (pat rep : List Char) (fuel : Nat) :
    replaceCore pat rep fuel [] = [] := by
  cases fuel <;> rfl

theorem replaceCore_no_occur (pm : Char) (pr rep : List Char) (fuel : Nat)
    (s : List Char) (hnm : pm ∉ s) :
    replaceCore (pm :: pr) rep fuel s = s := by
  induction fuel generalizing s with
  | zero => rfl
  | succ fuel ih =>
    cases s with
    | nil => rfl
    | cons c rest =>
      have hcond : ¬ ((pm :: pr) ≠ [] ∧ (pm :: pr).isPrefixOf (c :: rest) = true) := by
        rintro ⟨-, hpre⟩
        rw [List.isPrefixOf_iff_prefix] at hpre
        have := (List.cons_prefix_cons.mp hpre).1
        exact hnm (this ▸ List.mem_cons_self c rest)
      simp only [replaceCore]
      rw [if_neg hcond, ih rest (fun hc => hnm (List.mem_cons_of_mem c hc))]

theorem replace_no_occur (s : List Char) (pm : Char) (pr rep : List Char)
    (hnm : pm ∉ s) : replace s (pm :: pr) rep = s :=
  replaceCore_no_occur pm pr rep s.length s hnm

theorem replaceCore_strip (pm : Char) (pr : List Char) (xs : List Char)
    (hnm : pm ∉ xs) (fuel : Nat) (hfuel : xs.length < fuel) :
    replaceCore (pm :: pr) [] fuel (xs ++ pm :: pr) = xs := by
  induction xs generalizing fuel with
  | nil =>
    cases fuel with
    | zero => omega
    | succ fuel =>
      show replaceCore (pm :: pr) [] (fuel + 1) (pm :: pr) = []
      have hcond : ((pm :: pr) ≠ [] ∧ (pm :: pr).isPrefixOf (pm :: pr) = true) :=
        ⟨by simp, by simp [List.isPrefixOf_iff_prefix]⟩
      simp only [replaceCore]
      rw [if_pos hcond]
      show [] ++ replaceCore (pm :: pr) [] fuel ((pm :: pr).drop (pm :: pr).length) = []
      rw [List.drop_length, replaceCore_nil]
      rfl
  | cons x xs ih =>
    cases fuel with
    | zero => simp at hfuel
    | succ fuel =>
      rw [List.cons_append]
      have hcond : ¬ ((pm :: pr) ≠ [] ∧
          (pm :: pr).isPrefixOf (x :: (xs ++ pm :: pr)) = true) := by
        rintro ⟨-, hpre⟩
        rw [List.isPrefixOf_iff_prefix] at hpre
        have := (List.cons_prefix_cons.mp hpre).1
        exact hnm (this ▸ List.mem_cons_self x xs)
      simp only [replaceCore]
      rw [if_neg hcond,
        ih (fun hc => hnm (List.mem_cons_of_mem x hc)) fuel
          (by simp only [List.length_cons] at hfuel; omega)]

theorem replace_strip (xs : List Char) (pm : Char) (pr : List Char)
    (hnm : pm ∉ xs) : replace (xs ++ pm :: pr) (pm :: pr) [] = xs := by
  unfold replace
  exact replaceCore_strip pm pr xs hnm _
    (by rw [List.length_append]; simp)

/-! ## Claim theorems: interval derivation -/

/-- C1, counterexample: on the worked-example configuration (the
repository's own `create_intervals` test fixture) `Config::intervals`
produces twelve intervals, not the eleven the specification describes. -/
theorem exampleConfig_intervals_not_eleven :
    exampleConfig.intervals.length = 12 ∧
      exampleConfig.intervals.length ≠ 11 := by
  decide

/-- C1, as amended: on the worked-example configuration `Config::intervals`
produces exactly the twelve intervals of the repository's test expectation.
The `2022-11-30 16:00 On` entry is not absorbed: the state at 16:00 is Off
(set Off at 14:00), so it opens `off 14:00–16:00, on 16:00–22:00` on the
final scanned day, and the `Daily 18:00 On` entry is the one elided.  The
final interval ends at 2022-11-30T22:00:00+01:00 and the end date's day
(12-01) is never scanned. -/
theorem exampleConfig_intervals_eq :
    exampleConfig.intervals = exampleIntervals := by
  decide

/-- C2, counterexample: with an empty entry list `Config::intervals`
returns the empty list, not the single default-Off interval
`[begin, end)` the specification promises (on an empty candidate list
`first()`/`last()` are `None`, `unwrap_or(false)` suppresses both boundary
insertions). -/
theorem emptyEntries_counterexample :
    Config.intervals emptyEntriesConfig = [] ∧
      Config.intervals emptyEntriesConfig ≠
        [⟨emptyEntriesConfig.start, emptyEntriesConfig.stop, State.off⟩] := by
  decide

/-- C2, as amended: for every `begin < end`, deriving intervals from an
empty entry list returns the empty list (no boundary synthesis happens
because there is no first or last state change). -/
theorem intervals_empty_entries (dev : List Char) (cs : Int) (b e : LDT)
    (h : LDT.lt b e) :
    StateChange.from_entries_between [] b e = [] ∧
      Config.intervals ⟨dev, b, e, cs, []⟩ = [] := by
  refine ⟨from_entries_between_nil b e, ?_⟩
  simp [Config.intervals, from_entries_between_nil]

/-- C2 witness: the amended claim at a concrete window. -/
theorem intervals_empty_entries_witness :
    StateChange.from_entries_between [] ⟨19324, 0⟩ ⟨19325, 0⟩ = [] ∧
      Config.intervals ⟨[], ⟨19324, 0⟩, ⟨19325, 0⟩, 600, []⟩ = [] :=
  intervals_empty_entries [] 600 ⟨19324, 0⟩ ⟨19325, 0⟩ (by decide)

/-- C3, counterexample: `boundaryConfig` has a non-empty entry list and
`start < end`, yet the derived sequence neither starts at `begin` (the
first candidate, 13:00, lies before the mid-day `begin` 15:00, so no
leading boundary is synthesized) nor ends at `end` (the synthesized
trailing `Off` change is elided because the state is already Off). -/
theorem boundaryConfig_counterexample :
    boundaryConfig.entries ≠ [] ∧
      LDT.lt boundaryConfig.start boundaryConfig.stop ∧
      boundaryConfig.intervals =
        [⟨⟨19324, 46800⟩, ⟨19324, 79200⟩, State.on⟩] ∧
      (boundaryConfig.intervals.map Interval.start).head? ≠
        some boundaryConfig.start ∧
      (boundaryConfig.intervals.map Interval.stop).getLast? ≠
        some boundaryConfig.stop := by
  decide

/-- C3, as amended: for every non-empty entry list and `begin < end` the
derived interval sequence is contiguous (`intervals[i].end ==
intervals[i+1].start` for every adjacent pair); its first start need not
be `begin` and its last end need not be `end`. -/
theorem intervals_contiguous (cfg : Config) (h1 : cfg.entries ≠ [])
    (h2 : LDT.lt cfg.start cfg.stop) (i : Nat)
    (hi : i + 1 < cfg.intervals.length) :
    (cfg.intervals.get ⟨i, Nat.lt_of_succ_lt hi⟩).stop =
      (cfg.intervals.get ⟨i + 1, hi⟩).start := by
  have hlen := intervals_length cfg
  have hb1 : i < (StateChange.from_entries_between cfg.entries cfg.start
      cfg.stop).length := by omega
  have hb2 : i + 1 < (StateChange.from_entries_between cfg.entries cfg.start
      cfg.stop).length := by omega
  have hb3 : i + 2 < (StateChange.from_entries_between cfg.entries cfg.start
      cfg.stop).length := by omega
  rw [intervals_getElem cfg i (by omega) hb1 hb2,
    intervals_getElem cfg (i + 1) hi hb2 hb3]

/-- C3 witness: contiguity at a concrete configuration and index. -/
theorem intervals_contiguous_witness :
    exampleConfig.entries ≠ [] ∧
      LDT.lt exampleConfig.start exampleConfig.stop ∧
      (exampleConfig.intervals.get ⟨0, by decide⟩).stop =
        (exampleConfig.intervals.get ⟨1, by decide⟩).start :=
  ⟨by decide, by decide,
    intervals_contiguous exampleConfig (by decide) (by decide) 0 (by decide)⟩

/-- C4: when several entries produce a candidate state change at the same
instant `t` inside the window, the change surviving the
sort-then-`dedup_by_key` stage of `from_entries_between` carries the state
of the entry with the least index among those matching `t` (the stable
sort keeps equal timestamps in input order and `dedup_by_key` keeps the
first of each run). -/
theorem dedup_first_entry_wins (entries : List Entry) (b e t : LDT) (k : Nat)
    (hk : k < entries.length)
    (hday : t.date ∈ daysBetween b e)
    (hmatch : matchesAt (entries.get ⟨k, hk⟩) t = true)
    (hearlier : ∀ j (hj : j < k),
      matchesAt (entries.get ⟨j, Nat.lt_trans hj hk⟩) t = false) :
    (dedupByWhen (sortByKey (fun c => c.when) (candidates entries b e))).find?
        (fun c => decide (c.when = t)) =
      some ⟨t, (entries.get ⟨k, hk⟩).state⟩ := by
  rw [dedupByWhen_find? t, find?_eq_head?_filter,
    filter_sortByKey (fun c : StateChange => c.when) t _
      (fun a ha => by simpa using ha),
    ← find?_eq_head?_filter, candidates_find? entries b e t hday,
    find?_of_earliest (fun en => matchesAt en t) entries k hk hmatch hearlier]
  rfl

/-- C4 witness: the spec's tie-break example.  Entries `[{Daily, 12:42,
On}, {Date(2022-11-28), 12:42, Off}]` over a window containing
2022-11-28T12:42:00 leave the state change `On` (the first-listed entry)
at that instant. -/
theorem dedup_first_entry_wins_witness :
    (dedupByWhen (sortByKey (fun c => c.when)
        (candidates tieEntries ⟨19324, 0⟩ ⟨19325, 86399⟩))).find?
        (fun c => decide (c.when = ⟨19324, 45720⟩)) =
      some ⟨⟨19324, 45720⟩, State.on⟩ :=
  dedup_first_entry_wins tieEntries ⟨19324, 0⟩ ⟨19325, 86399⟩ ⟨19324, 45720⟩ 0
    (by decide) (by decide) (by decide)
    (fun j hj => absurd hj (Nat.not_lt_zero j))

/-- C5: adjacent intervals in any output of `Config::intervals` never share
a state (the `retain` stage drops changes equal in state to the last kept
change, so consecutive state changes differ). -/
theorem intervals_adjacent_states_distinct (cfg : Config)
    (h : LDT.lt cfg.start cfg.stop) (i : Nat)
    (hi : i + 1 < cfg.intervals.length) :
    (cfg.intervals.get ⟨i, Nat.lt_of_succ_lt hi⟩).state ≠
      (cfg.intervals.get ⟨i + 1, hi⟩).state := by
  have hlen := intervals_length cfg
  have hb1 : i < (StateChange.from_entries_between cfg.entries cfg.start
      cfg.stop).length := by omega
  have hb2 : i + 1 < (StateChange.from_entries_between cfg.entries cfg.start
      cfg.stop).length := by omega
  have hb3 : i + 2 < (StateChange.from_entries_between cfg.entries cfg.start
      cfg.stop).length := by omega
  rw [intervals_getElem cfg i (by omega) hb1 hb2,
    intervals_getElem cfg (i + 1) hi hb2 hb3]
  have hchain := from_entries_between_state_chain cfg.entries cfg.start cfg.stop
  rw [List.chain'_iff_get] at hchain
  exact hchain i (by omega)

/-- C5 witness: adjacent distinctness at a concrete configuration and
index. -/
theorem intervals_adjacent_states_distinct_witness :
    LDT.lt exampleConfig.start exampleConfig.stop ∧
      (exampleConfig.intervals.get ⟨0, by decide⟩).state ≠
        (exampleConfig.intervals.get ⟨1, by decide⟩).state :=
  ⟨by decide,
    intervals_adjacent_states_distinct exampleConfig (by decide) 0 (by decide)⟩

/-- C6: every interval produced by `Config::intervals` satisfies
`start < end`, and the state-change sequence returned by
`from_entries_between` has strictly increasing timestamps. -/
theorem intervals_start_lt_stop (cfg : Config)
    (h : LDT.lt cfg.start cfg.stop) :
    (∀ iv ∈ cfg.intervals, LDT.lt iv.start iv.stop) ∧
      (StateChange.from_entries_between cfg.entries cfg.start cfg.stop).Pairwise
        (fun a b => LDT.lt a.when b.when) := by
  have hpw := from_entries_between_pairwise cfg.entries cfg.start cfg.stop
  refine ⟨?_, hpw⟩
  intro iv hiv
  rw [List.mem_iff_getElem] at hiv
  obtain ⟨i, hi, hiv⟩ := hiv
  have hlen := intervals_length cfg
  have hb1 : i < (StateChange.from_entries_between cfg.entries cfg.start
      cfg.stop).length := by omega
  have hb2 : i + 1 < (StateChange.from_entries_between cfg.entries cfg.start
      cfg.stop).length := by omega
  rw [← hiv]
  show LDT.lt (cfg.intervals.get ⟨i, hi⟩).start (cfg.intervals.get ⟨i, hi⟩).stop
  rw [intervals_getElem cfg i hi hb1 hb2]
  rw [List.pairwise_iff_get] at hpw
  exact hpw ⟨i, hb1⟩ ⟨i + 1, hb2⟩ (Fin.mk_lt_mk.mpr (Nat.lt_succ_self i))

/-- C6 witness: `start < end` for a concrete member of a concrete output. -/
theorem intervals_start_lt_stop_witness :
    LDT.lt (⟨⟨19324, 0⟩, ⟨19324, 46800⟩, State.off⟩ : Interval).start
      (⟨⟨19324, 0⟩, ⟨19324, 46800⟩, State.off⟩ : Interval).stop :=
  (intervals_start_lt_stop exampleConfig (by decide)).1 _ (by decide)

/-- C9: one execution of the timer's pruning step (`update_times`, with
`now` a parameter) leaves exactly the previous wake times strictly greater
than `now` (as a multiset), sorted ascending; every retained time is
strictly in the future, so times `≤ now` can never produce a tick. -/
theorem update_times_spec (now : LDT) (times : List LDT) :
    (TimerState.update_times now times).Perm
        (times.filter (fun t => decide (LDT.lt now t))) ∧
      (TimerState.update_times now times).Pairwise LDT.le ∧
      ∀ t ∈ TimerState.update_times now times, LDT.lt now t := by
  unfold TimerState.update_times
  refine ⟨sortByKey_perm _ _, sortByKey_pairwise (fun t => t) _, ?_⟩
  intro t ht
  have hmem := (sortByKey_perm (fun t => t) _).mem_iff.mp ht
  rw [List.mem_filter] at hmem
  simpa using hmem.2

/-- C9 witness: a retained wake time is strictly after `now`. -/
theorem update_times_spec_witness :
    LDT.lt ⟨19324, 100⟩ ⟨19324, 200⟩ :=
  (update_times_spec ⟨19324, 100⟩ [⟨19324, 200⟩, ⟨19324, 50⟩]).2.2
    ⟨19324, 200⟩ (by decide)

/-! ## Claim theorems: duration text format -/

theorem isWS_of_mem_natDigits (n : Nat) (c : Char) (hc : c ∈ natDigits n) :
    isWS c = false := by
  obtain ⟨k, hk, hck⟩ := mem_natDigits n c hc
  subst hck
  exact isWS_digitChar k hk

theorem mem_intRepr_not_ws (i : Int) (c : Char) (hc : c ∈ intRepr i) :
    isWS c = false := by
  unfold intRepr at hc
  by_cases hneg : i < 0
  · rw [if_pos hneg] at hc
    rcases List.mem_cons.mp hc with rfl | hc
    · decide
    · exact isWS_of_mem_natDigits _ c hc
  · rw [if_neg hneg] at hc
    exact isWS_of_mem_natDigits _ c hc

theorem char_not_mem_intRepr (ch : Char) (hch : ch ≠ '-')
    (hd : ∀ k, k < 10 → digitChar k ≠ ch) (i : Int) : ch ∉ intRepr i := by
  unfold intRepr
  by_cases hneg : i < 0
  · rw [if_pos hneg]
    intro hc
    rcases List.mem_cons.mp hc with h' | h'
    · exact hch h'
    · exact not_mem_natDigits ch hd _ h'
  · rw [if_neg hneg]
    exact not_mem_natDigits ch hd _

theorem intRepr_ne_nil (i : Int) : intRepr i ≠ [] := by
  unfold intRepr
  by_cases hneg : i < 0
  · rw [if_pos hneg]
    simp
  · rw [if_neg hneg]
    exact natDigits_ne_nil _

theorem intRepr_nonneg (i : Int) (h : 0 ≤ i) :
    intRepr i = natDigits i.natAbs := by
  unfold intRepr
  rw [if_neg (by omega)]

/-- Parsing a well-shaped two-component duration string: if the two
components are non-empty, whitespace-free, their stripped forms parse as
`i64`, and both values lie inside chrono's `Duration` bounds (so neither
constructor panics), then `duration_parse` returns
`minutes * 60 + seconds`. -/
theorem duration_parse_of_components (x y : List Char) (m s : Int)
    (hxne : x ≠ []) (hyne : y ≠ [])
    (hxw : ∀ c ∈ x, isWS c = false) (hyw : ∀ c ∈ y, isWS c = false)
    (hx : parseI64 (replace x minsLit []) = some m)
    (hy : parseI64 (replace y secsLit []) = some s)
    (hmB : -153722867280912 ≤ m ∧ m ≤ 153722867280912)
    (hsB : -9223372036854775 ≤ s ∧ s ≤ 9223372036854775) :
    duration_parse (x ++ ' ' :: y) = ParseOutcome.ok (m * 60 + s) := by
  have hxs : ' ' ∉ x := fun hc => by
    have h := hxw ' ' hc
    simp [isWS] at h
  have hhead : ∀ c ∈ (x ++ ' ' :: y).head?, isWS c = false := by
    cases x with
    | nil => exact absurd rfl hxne
    | cons c0 rest =>
      intro c hc
      rw [List.cons_append, List.head?_cons] at hc
      rw [Option.mem_some_iff] at hc
      rw [← hc]
      exact hxw c0 (List.mem_cons_self c0 rest)
  have hlast : ∀ c ∈ (x ++ ' ' :: y).getLast?, isWS c = false := by
    intro c hc
    obtain ⟨d, hd⟩ : ∃ d, y.getLast? = some d := by
      cases hl : y.getLast? with
      | none => exact absurd (List.getLast?_eq_none_iff.mp hl) hyne
      | some d => exact ⟨d, rfl⟩
    rw [List.getLast?_append, List.getLast?_cons, hd, Option.getD_some] at hc
    have hcd : c = d := by
      rw [show (some d).or x.getLast? = some d from rfl, Option.mem_some_iff] at hc
      exact hc.symm
    rw [hcd]
    exact hyw d (List.mem_of_mem_getLast? (by rw [hd]; rfl))
  have hsplit : splitOnceSpace (trim (x ++ ' ' :: y)) = some (x, y) := by
    rw [trim_eq_self _ hhead hlast]
    exact splitOnceSpace_append x y hxs
  have hdm : durationMinutes m = some (m * 60) := by
    unfold durationMinutes durationSeconds
    rw [if_pos (by omega)]
  have hds : durationSeconds s = some s := by
    unfold durationSeconds
    rw [if_pos (by omega)]
  simp only [duration_parse, hsplit, hx, hdm, hy, hds]

theorem isWS_minsLit : ∀ c ∈ minsLit, isWS c = false := by
  intro c hc
  fin_cases hc <;> decide

theorem isWS_secsLit : ∀ c ∈ secsLit, isWS c = false := by
  intro c hc
  fin_cases hc <;> decide

/-- The shape of `duration_pretty d` for a non-negative whole-second
duration: minutes digits, `"mins"`, one space, seconds digits, `"secs"`. -/
theorem duration_pretty_shape (d : Int) (h0 : 0 ≤ d) :
    duration_pretty d =
      (intRepr (Int.tdiv d 60) ++ minsLit) ++
        ' ' :: (intRepr (if 0 < Int.tdiv d 60 then d - Int.tdiv d 60 * 60 else d)
          ++ secsLit) := by
  simp only [duration_pretty]
  simp [List.append_assoc]

/-- C10, counterexample: the original claim fails for `i64`-range minute
counts outside chrono's `Duration` bounds.  Parsing the bare string
`"153722867280913 0"` does not return `Ok(60 * 153722867280913 + 0)`:
`153722867280913` parses as `i64`, but `Duration::minutes` panics
(`153722867280913 * 60` seconds exceeds `i64::MAX` milliseconds), so the
program aborts instead of returning. -/
theorem bare_numbers_panic_counterexample :
    duration_parse (intRepr 153722867280913 ++ ' ' :: intRepr 0) =
        ParseOutcome.panic "Duration::minutes out of bounds" ∧
      duration_parse (intRepr 153722867280913 ++ ' ' :: intRepr 0) ≠
        ParseOutcome.ok (60 * 153722867280913 + 0) := by
  decide

/-- C10, as amended: the `"mins"`/`"secs"` suffixes are not required: for
any two integers `m` and `s` within chrono's `Duration` bounds
(`|m| ≤ 153722867280912` minutes, `|s| ≤ 9223372036854775` seconds, both
inside the `i64` range `parse` accepts), parsing the bare string
`"{m} {s}"` succeeds and returns `m` minutes plus `s` seconds, because
the suffix literals are stripped by substring replacement (a no-op on
digit strings) rather than matched as mandatory syntax; outside those
bounds the `Duration` constructors panic instead of returning. -/
theorem duration_parse_bare_numbers (m s : Int)
    (hm1 : -153722867280912 ≤ m) (hm2 : m ≤ 153722867280912)
    (hs1 : -9223372036854775 ≤ s) (hs2 : s ≤ 9223372036854775) :
    duration_parse (intRepr m ++ ' ' :: intRepr s) =
      ParseOutcome.ok (m * 60 + s) := by
  have hmm : 'm' ∉ intRepr m := char_not_mem_intRepr 'm' (by decide) (by decide) m
  have hss : 's' ∉ intRepr s := char_not_mem_intRepr 's' (by decide) (by decide) s
  refine duration_parse_of_components (intRepr m) (intRepr s) m s
    (intRepr_ne_nil m) (intRepr_ne_nil s)
    (fun c hc => mem_intRepr_not_ws m c hc)
    (fun c hc => mem_intRepr_not_ws s c hc) ?_ ?_ ⟨hm1, hm2⟩ ⟨hs1, hs2⟩
  · rw [show minsLit = 'm' :: ['i', 'n', 's'] from rfl,
      replace_no_occur _ 'm' _ _ hmm]
    exact parseI64_intRepr m (by omega) (by omega)
  · rw [show secsLit = 's' :: ['e', 'c', 's'] from rfl,
      replace_no_occur _ 's' _ _ hss]
    exact parseI64_intRepr s (by omega) (by omega)

/-- C10 witness: `"3 4"` parses to 184 seconds. -/
theorem duration_parse_bare_numbers_witness :
    duration_parse (intRepr 3 ++ ' ' :: intRepr 4) =
      ParseOutcome.ok (3 * 60 + 4) :=
  duration_parse_bare_numbers 3 4 (by decide) (by decide) (by decide) (by decide)

/-- C7: the duration text format round-trips.  For every non-negative
whole-second duration `d` (bounded by `chrono::Duration`'s maximum of
`i64::MAX` milliseconds, i.e. 9223372036854775 seconds),
`duration_parse (duration_pretty d)` succeeds and returns `d`; within this
domain neither `Duration` constructor panics. -/
theorem duration_roundtrip (d : Int) (h0 : 0 ≤ d)
    (h1 : d ≤ 9223372036854775) :
    duration_parse (duration_pretty d) = ParseOutcome.ok d := by
  have hMeq : Int.tdiv d 60 = d / 60 := Int.tdiv_eq_ediv h0 (by norm_num)
  have hMB : -153722867280912 ≤ Int.tdiv d 60 ∧
      Int.tdiv d 60 ≤ 153722867280912 := by
    rw [hMeq]
    omega
  have hSB : -9223372036854775 ≤
        (if 0 < Int.tdiv d 60 then d - Int.tdiv d 60 * 60 else d) ∧
      (if 0 < Int.tdiv d 60 then d - Int.tdiv d 60 * 60 else d) ≤
        9223372036854775 := by
    rw [hMeq]
    split
    · omega
    · omega
  have hsum : Int.tdiv d 60 * 60 +
      (if 0 < Int.tdiv d 60 then d - Int.tdiv d 60 * 60 else d) = d := by
    rw [hMeq]
    split
    · omega
    · omega
  rw [duration_pretty_shape d h0]
  have hmm : 'm' ∉ intRepr (Int.tdiv d 60) :=
    char_not_mem_intRepr 'm' (by decide) (by decide) _
  have hss : 's' ∉ intRepr (if 0 < Int.tdiv d 60 then d - Int.tdiv d 60 * 60
      else d) := char_not_mem_intRepr 's' (by decide) (by decide) _
  have hparse := duration_parse_of_components
    (intRepr (Int.tdiv d 60) ++ minsLit)
    (intRepr (if 0 < Int.tdiv d 60 then d - Int.tdiv d 60 * 60 else d)
      ++ secsLit)
    (Int.tdiv d 60)
    (if 0 < Int.tdiv d 60 then d - Int.tdiv d 60 * 60 else d)
    (by simp [minsLit]) (by simp [secsLit])
    (fun c hc => by
      rcases List.mem_append.mp hc with hc | hc
      · exact mem_intRepr_not_ws _ c hc
      · exact isWS_minsLit c hc)
    (fun c hc => by
      rcases List.mem_append.mp hc with hc | hc
      · exact mem_intRepr_not_ws _ c hc
      · exact isWS_secsLit c hc)
    (by
      rw [show minsLit = 'm' :: ['i', 'n', 's'] from rfl,
        replace_strip _ 'm' _ hmm]
      exact parseI64_intRepr _ (by omega) (by omega))
    (by
      rw [show secsLit = 's' :: ['e', 'c', 's'] from rfl,
        replace_strip _ 's' _ hss]
      exact parseI64_intRepr _ (by omega) (by omega))
    hMB hSB
  rw [hparse, hsum]

/-- C7 witness: a ten-minute duration round-trips through
`"10mins 0secs"`. -/
theorem duration_roundtrip_witness :
    duration_parse (duration_pretty 600) = ParseOutcome.ok 600 :=
  duration_roundtrip 600 (by decide) (by decide)

/-- C8: `duration_parse` fails hard on malformed input and never silently
returns zero: an input without a space after trimming returns a parse
error, a minutes component that does not parse as an integer returns a
parse error, a seconds component that does not parse as an integer returns
a parse error (whenever execution reaches it, i.e. the minutes value did
not already abort in `Duration::minutes`), and an input with an unparsable
minutes or seconds component never produces `Ok`. -/
theorem duration_parse_malformed (s : List Char) :
    ((' ' ∉ trim s) → ∃ msg, duration_parse s = ParseOutcome.err msg) ∧
      ∀ a b, splitOnceSpace (trim s) = some (a, b) →
        (parseI64 (replace a minsLit []) = none →
          ∃ msg, duration_parse s = ParseOutcome.err msg) ∧
        (∀ m, parseI64 (replace a minsLit []) = some m →
          durationMinutes m ≠ none →
          parseI64 (replace b secsLit []) = none →
          ∃ msg, duration_parse s = ParseOutcome.err msg) ∧
        ((parseI64 (replace a minsLit []) = none ∨
            parseI64 (replace b secsLit []) = none) →
          ∀ v, duration_parse s ≠ ParseOutcome.ok v) := by
  constructor
  · intro h
    exact ⟨"unable to parse duration",
      by simp only [duration_parse, splitOnceSpace_none (trim s) h]⟩
  · intro a b hsp
    refine ⟨?_, ?_, ?_⟩
    · intro hm
      exact ⟨"Unable to parse minutes", by simp only [duration_parse, hsp, hm]⟩
    · intro m hm hdmne hsec
      obtain ⟨dm, hdm⟩ : ∃ dm, durationMinutes m = some dm := by
        cases hd : durationMinutes m with
        | none => exact absurd hd hdmne
        | some dm => exact ⟨dm, rfl⟩
      exact ⟨"Unable to parse seconds",
        by simp only [duration_parse, hsp, hm, hdm, hsec]⟩
    · intro hfail v hcontra
      rcases hfail with hf | hf
      · simp only [duration_parse, hsp, hf] at hcontra
        exact ParseOutcome.noConfusion hcontra
      · cases hm : parseI64 (replace a minsLit []) with
        | none =>
          simp only [duration_parse, hsp, hm] at hcontra
          exact ParseOutcome.noConfusion hcontra
        | some m =>
          cases hdm : durationMinutes m with
          | none =>
            simp only [duration_parse, hsp, hm, hdm] at hcontra
            exact ParseOutcome.noConfusion hcontra
          | some dm =>
            simp only [duration_parse, hsp, hm, hdm, hf] at hcontra
            exact ParseOutcome.noConfusion hcontra

/-- C8 witness: `"abc"` (no space), `"xmins 4x"` (non-numeric minutes) and
`"3mins xsecs"` (non-numeric seconds) are all hard parse errors, and an
unparsable component never yields `Ok`. -/
theorem duration_parse_malformed_witness :
    (∃ msg, duration_parse ['a', 'b', 'c'] = ParseOutcome.err msg) ∧
      (∃ msg, duration_parse ['x', 'm', 'i', 'n', 's', ' ', '4', 'x'] =
        ParseOutcome.err msg) ∧
      (∃ msg, duration_parse
          ['3', 'm', 'i', 'n', 's', ' ', 'x', 's', 'e', 'c', 's'] =
        ParseOutcome.err msg) ∧
      duration_parse ['x', 'm', 'i', 'n', 's', ' ', '4', 'x'] ≠
        ParseOutcome.ok 0 :=
  ⟨(duration_parse_malformed ['a', 'b', 'c']).1 (by decide),
    ((duration_parse_malformed ['x', 'm', 'i', 'n', 's', ' ', '4', 'x']).2
      ['x', 'm', 'i', 'n', 's'] ['4', 'x'] (by decide)).1 (by decide),
    ((duration_parse_malformed
        ['3', 'm', 'i', 'n', 's', ' ', 'x', 's', 'e', 'c', 's']).2
      ['3', 'm', 'i', 'n', 's'] ['x', 's', 'e', 'c', 's'] (by decide)).2.1
      3 (by decide) (by decide) (by decide),
    ((duration_parse_malformed ['x', 'm', 'i', 'n', 's', ' ', '4', 'x']).2
      ['x', 'm', 'i', 'n', 's'] ['4', 'x'] (by decide)).2.2
      (Or.inl (by decide)) 0⟩

end Fritz
